import Mathlib

/-
  Verification development for the yyjson-ruby C extension.

  Shallow embedding of the option/mode resolver (parser.c, writer.c),
  the HTML-escape post-pass (writer.c), the object dumper with cycle
  detection and depth limiting (object_dumper.c), and the key interning
  cache (value_builder.c).

  Conventions:
  * Ruby `VALUE` option-hash lookups `rb_hash_aref(h, key)` are modelled by
    `Option`-typed fields: `none` covers both an absent key and a `nil`
    value (the C code treats the two identically through `NIL_P`).
  * A boolean option supplied by the caller is modelled by the truthiness
    (`RTEST`) of the supplied value, i.e. a `Bool`.
  * Byte strings are `List Nat` (one `Nat` per byte, values < 256 at use
    sites); C `char` comparison is modelled unsigned, which is exact on
    platforms where plain `char` is unsigned and agrees with the 64-bit
    big-endian chunk comparison of `fast_cmp` everywhere it is exercised.
-/

namespace YYJson

/-- Byte strings: one natural number per byte. -/
abbrev ByteStr := List Nat

/-- The `yyjson_mode_t` enumeration from common.h. -/
inductive Mode where
  | mstrict
  | mcompat
  | mrails
  | mobject
  | mcustom
deriving DecidableEq, Repr

/-- A Ruby symbol supplied as the `:mode` option value: one of the five
recognized mode names, or any other symbol (which falls through every
branch of the extractor and leaves the defaults untouched, exactly like
an absent key). A non-symbol `:mode` value is also ignored by the C code
(`SYMBOL_P` guard) and is therefore modelled as `none` at the call site. -/
inductive MSym where
  | strict
  | compat
  | rails
  | object
  | custom
  | other
deriving DecidableEq, Repr

/-- The `yyjson_parse_options` struct from value_builder.h. -/
structure ParseOpts where
  symbolize_names : Bool
  freeze : Bool
  allow_nan : Bool
  allow_comments : Bool
  max_nesting : Int
  mode : Mode
deriving DecidableEq, Repr

/-- The Ruby options hash passed to the parse entry points, restricted to
the keys `yyjson_extract_parse_options` looks up. -/
structure ParseOptsHash where
  mode : Option MSym := none
  symbolize_names : Option Bool := none
  freeze : Option Bool := none
  allow_nan : Option Bool := none
  allow_comments : Option Bool := none
  max_nesting : Option Int := none
deriving DecidableEq, Repr

/-- Embedding of `yyjson_extract_parse_options` (parser.c lines 121-192):
Compat defaults are written first; a recognized `:mode` symbol overwrites
them with that mode's bundle; afterwards each explicitly provided field
overwrites the current value. `none` for the whole hash models a `nil`
`opts_hash` (the early return after the defaults). -/
def yyjson_extract_parse_options (opts_hash : Option ParseOptsHash) : ParseOpts :=
  let defaults : ParseOpts :=
    { symbolize_names := false
      freeze := false
      allow_nan := true
      allow_comments := true
      max_nesting := 100
      mode := Mode.mcompat }
  match opts_hash with
  | none => defaults
  | some h =>
    let o1 : ParseOpts :=
      match h.mode with
      | some MSym.strict =>
        { defaults with
            mode := Mode.mstrict
            allow_nan := false
            allow_comments := false
            symbolize_names := false }
      | some MSym.compat => { defaults with mode := Mode.mcompat }
      | some MSym.rails =>
        { defaults with
            mode := Mode.mrails
            symbolize_names := true
            allow_nan := true
            allow_comments := true }
      | some MSym.object => { defaults with mode := Mode.mobject }
      | some MSym.custom => { defaults with mode := Mode.mcustom }
      | some MSym.other => defaults
      | none => defaults
    let o2 := match h.symbolize_names with
      | some b => { o1 with symbolize_names := b }
      | none => o1
    let o3 := match h.freeze with
      | some b => { o2 with freeze := b }
      | none => o2
    let o4 := match h.allow_nan with
      | some b => { o3 with allow_nan := b }
      | none => o3
    let o5 := match h.allow_comments with
      | some b => { o4 with allow_comments := b }
      | none => o4
    match h.max_nesting with
      | some n => { o5 with max_nesting := n }
      | none => o5

/-- The `yyjson_dump_options` struct from object_dumper.h (without the
`temp_obj` scratch pointer, which carries no option data). -/
structure DumpOpts where
  pretty : Bool
  escape_slash : Bool
  allow_nan : Bool
  escape_html : Bool
  indent : Int
  mode : Mode
deriving DecidableEq, Repr

/-- The Ruby options hash passed to the dump entry points, restricted to
the keys `yyjson_extract_dump_options` looks up. -/
structure DumpOptsHash where
  pretty : Option Bool := none
  indent : Option Int := none
  escape_slash : Option Bool := none
  allow_nan : Option Bool := none
  mode : Option MSym := none
  escape_html : Option Bool := none
deriving DecidableEq, Repr

/-- Embedding of `yyjson_extract_dump_options` (writer.c lines 239-308),
with the extractions performed in the source's order: `pretty`, `indent`
(a positive value also turns `pretty` on), `escape_slash`, `allow_nan`,
then the `:mode` bundle (strict sets `allow_nan := false` and
`escape_slash := true`; rails sets `escape_html := true`; the dump
extractor has no `custom` branch), and finally `escape_html`. -/
def yyjson_extract_dump_options (opts_hash : Option DumpOptsHash) : DumpOpts :=
  let defaults : DumpOpts :=
    { pretty := false
      escape_slash := false
      allow_nan := true
      escape_html := false
      indent := 2
      mode := Mode.mcompat }
  match opts_hash with
  | none => defaults
  | some h =>
    let o1 := match h.pretty with
      | some b => { defaults with pretty := b }
      | none => defaults
    let o2 := match h.indent with
      | some n =>
        let t := { o1 with indent := n }
        if n > 0 then { t with pretty := true } else t
      | none => o1
    let o3 := match h.escape_slash with
      | some b => { o2 with escape_slash := b }
      | none => o2
    let o4 := match h.allow_nan with
      | some b => { o3 with allow_nan := b }
      | none => o3
    let o5 : DumpOpts :=
      match h.mode with
      | some MSym.strict =>
        { o4 with
            mode := Mode.mstrict
            allow_nan := false
            escape_slash := true }
      | some MSym.compat => { o4 with mode := Mode.mcompat }
      | some MSym.rails =>
        { o4 with
            mode := Mode.mrails
            escape_html := true }
      | some MSym.object => { o4 with mode := Mode.mobject }
      | some MSym.custom => o4
      | some MSym.other => o4
      | none => o4
    match h.escape_html with
      | some b => { o5 with escape_html := b }
      | none => o5

/-- The once-initialized `default_parse_opts` struct from yyjson_ext.c
lines 36-43. -/
def default_parse_opts : ParseOpts :=
  { symbolize_names := false
    freeze := false
    allow_nan := true
    allow_comments := true
    max_nesting := 100
    mode := Mode.mcompat }

/-- An options hash with no recognized keys: the model of the Ruby hash
for which `RHASH_EMPTY_P` holds. -/
def emptyParseOptsHash : ParseOptsHash := {}

/-- Embedding of the dispatch in `yyjson_load` (yyjson_ext.c lines 60-77):
a `nil` or empty options hash takes the fast path through the
pre-initialized `default_parse_opts`; otherwise the options are resolved
by `yyjson_extract_parse_options`. The downstream parse (engine plus
value builder) is abstracted as a function of the resolved options. -/
def yyjson_load {α : Type} (parse : ParseOpts → α) (opts : Option ParseOptsHash) : α :=
  match opts with
  | none => parse default_parse_opts
  | some h =>
    if h = emptyParseOptsHash then parse default_parse_opts
    else
      let parse_opts := yyjson_extract_parse_options (some h)
      parse parse_opts

/-- First pass of `escape_html_entities` (writer.c lines 35-42): count the
bytes that need escaping. -/
def escape_count (s : ByteStr) : Nat :=
  match s with
  | [] => 0
  | c :: rest =>
    (if c = 60 ∨ c = 62 ∨ c = 38 ∨ c = 39 then 1 else 0) + escape_count rest

/-- Second pass of `escape_html_entities` (writer.c lines 61-82): rewrite
each of `<` (60), `>` (62), `&` (38), `'` (39) into its fixed 6-byte
sequence and copy every other byte through. -/
def escape_pass (s : ByteStr) : ByteStr :=
  match s with
  | [] => []
  | c :: rest =>
    (if c = 60 then [92, 117, 48, 48, 51, 99]
     else if c = 62 then [92, 117, 48, 48, 51, 101]
     else if c = 38 then [92, 117, 48, 48, 50, 54]
     else if c = 39 then [92, 117, 48, 48, 50, 55]
     else [c]) ++ escape_pass rest

/-- Embedding of `escape_html_entities` (writer.c lines 28-86): when the
first pass counts nothing to escape the input is returned as a plain
copy, otherwise the second pass rewrites into the enlarged buffer. -/
def escape_html_entities (s : ByteStr) : ByteStr :=
  if escape_count s = 0 then s else escape_pass s

/-- The post-processing step of `yyjson_ruby_write_string` (writer.c lines
139-152): the engine-serialized text is HTML-escaped exactly when the
resolved `escape_html` option is set. -/
def write_post (opts : DumpOpts) (json : ByteStr) : ByteStr :=
  if opts.escape_html then escape_html_entities json else json

/-- Per-byte escape map used to state what the two-pass rewrite computes. -/
def escByte (c : Nat) : ByteStr :=
  if c = 60 then [92, 117, 48, 48, 51, 99]
  else if c = 62 then [92, 117, 48, 48, 51, 101]
  else if c = 38 then [92, 117, 48, 48, 50, 54]
  else if c = 39 then [92, 117, 48, 48, 50, 55]
  else [c]

/-- A C `double` as the dumper observes it: the dumper only ever inspects
`isinf`/`isnan`, so a finite double is carried as an opaque payload and
the three non-finite cases are distinguished. -/
inductive Dbl where
  | fin (payload : Int)
  | inf
  | neginf
  | nan
deriving DecidableEq, Repr

/-- The `isinf` predicate from math.h as used by `dump_float`. -/
def Dbl.isinf : Dbl → Bool
  | .inf => true
  | .neginf => true
  | _ => false

/-- The `isnan` predicate from math.h as used by `dump_float`. -/
def Dbl.isnan : Dbl → Bool
  | .nan => true
  | _ => false

/-- A Ruby `VALUE` as the dumper dispatches on it (`TYPE(obj)` switch in
`dump_ruby_object`). Containers (`T_ARRAY`, `T_HASH`) are represented by a
reference into an explicit heap so that object identity (`rb_obj_id`) and
shared or cyclic structure are expressible. An opaque object (the `default`
branch of the switch) carries its capability probes: whether it is a
Time/Date/DateTime (`is_time_like`), its `iso8601` and `xmlschema` results
when it responds to them, its `as_json` result when it responds to that
(`none` models not responding), and its `to_s` result. -/
inductive RVal where
  | vnil
  | vtrue
  | vfalse
  | vint (n : Int)
  | vfloat (d : Dbl)
  | vstr (s : ByteStr)
  | vsym (s : ByteStr)
  | vref (i : Nat)
  | vforeign (timeLike : Bool) (iso8601 : Option ByteStr) (xmlschema : Option ByteStr)
      (asJson : Option RVal) (toS : ByteStr)

/-- A heap cell: the contents of one Ruby Array or Hash. -/
inductive HObj where
  | harr (items : List RVal)
  | hhash (pairs : List (RVal × RVal))

/-- The host object graph: cell `i` is the container with object id `i`. -/
abbrev Heap := List HObj

/-- A yyjson mutable value (`yyjson_mut_val`) built by the dumper. -/
inductive JNode where
  | jnull
  | jbool (b : Bool)
  | jint (n : Int)
  | jreal (d : Dbl)
  | jstr (s : ByteStr)
  | jarr (items : List JNode)
  | jobj (pairs : List (ByteStr × JNode))

/-- The distinct `rb_raise(eGenerateError, ...)` sites of the dump path,
plus `fuelOut`, the marker the fueled embedding returns when its step
budget runs out (the C code would still be running; no claim identifies
`fuelOut` with any real outcome). -/
inductive GErr where
  | nestingTooDeep
  | circularReference
  | nanNotAllowed
  | docFailure
  | fuelOut
deriving DecidableEq, Repr

/-- The `MAX_NESTING_DEPTH` macro from object_dumper.c line 13. -/
def MAX_NESTING_DEPTH : Nat := 100

/-- Embedding of `dump_float` (object_dumper.c lines 113-126): a non-finite
value is rejected exactly when the resolved `allow_nan` option is off. -/
def dump_float (allow_nan : Bool) (d : Dbl) : Except GErr JNode :=
  if (d.isinf || d.isnan) && !allow_nan then Except.error GErr.nanNotAllowed
  else Except.ok (JNode.jreal d)

/-- Decimal digits of a natural number, as bytes.  Modelled from the Ruby
runtime: only the fallback `to_s` conversion of integer hash keys uses it,
and no claim exercises that path. -/
def natDecimal (n : Nat) : ByteStr :=
  (Nat.toDigits 10 n).map Char.toNat

/-- Result of `rb_funcall(obj, id_to_s, 0)`.  Modelled from the Ruby
runtime for the built-in types; for an opaque object the probed `to_s`
field is returned.  Only the opaque case is exercised by any claim. -/
def rubyToS : RVal → ByteStr
  | .vnil => []
  | .vtrue => [116, 114, 117, 101]
  | .vfalse => [102, 97, 108, 115, 101]
  | .vint n => if n < 0 then 45 :: natDecimal n.natAbs else natDecimal n.natAbs
  | .vfloat _ => []
  | .vstr s => s
  | .vsym s => s
  | .vref _ => []
  | .vforeign _ _ _ _ toS => toS

/-- Key conversion in `dump_hash_iter` (object_dumper.c lines 160-168): a
string key is used as is, a symbol key through `rb_sym2str`, anything else
through `to_s`. -/
def key_to_str : RVal → ByteStr
  | .vstr s => s
  | .vsym s => s
  | v => rubyToS v

/-- Embedding of `is_basic_json_type` (object_dumper.c lines 216-224). -/
def is_basic_json_type : RVal → Bool
  | .vforeign _ _ _ _ _ => false
  | _ => true

/-- Embedding of `try_as_json` (object_dumper.c lines 261-279): in Compat
and Rails modes the probe is skipped for basic types; otherwise the
`as_json` capability is invoked when the object responds to it, and `nil`
is returned when it does not (indistinguishable from `as_json` itself
returning `nil`). -/
def try_as_json (mode : Mode) (v : RVal) : RVal :=
  if mode = Mode.mcompat && is_basic_json_type v then RVal.vnil
  else if mode = Mode.mrails && is_basic_json_type v then RVal.vnil
  else
    match v with
    | .vforeign _ _ _ (some r) _ => r
    | _ => RVal.vnil

/-- Embedding of `dump_time` (object_dumper.c lines 242-256) given the
object's capability probes: prefer `iso8601`, then `xmlschema`, then
`to_s`. -/
def dump_time_str (iso xml : Option ByteStr) (toS : ByteStr) : ByteStr :=
  match iso with
  | some s => s
  | none =>
    match xml with
    | some s => s
    | none => toS

/-- Embedding of `dump_ruby_object` together with `check_circular_reference`
and `unmark_visited` (object_dumper.c lines 33-67, 131-208 and 284-332).

The C `dump_context` carries a depth counter and a visited identity set
that are incremented/marked on container entry and decremented/unmarked on
container exit; since every exit restores the state exactly, the context
is passed downward here (children receive `depth + 1` and the extended
visited list) and needs no explicit restore.  `check_circular_reference`
first rejects `depth > MAX_NESTING_DEPTH`, then rejects a container whose
id is already on the active path; both checks run on every container
entry.  The element loop of `dump_array` and the pair loop of `dump_hash`
(`dump_hash_iter`, which dumps the value before converting the key) are
the `mapM` over the children; a raised error aborts the whole call, as
`rb_raise` does.  `fuel` bounds the recursion of the embedding only and
is decremented on container entry and on `as_json` re-dispatch. -/
def dump_ruby_object (heap : Heap) (opts : DumpOpts) :
    Nat → RVal → Nat → List Nat → Except GErr JNode
  | 0, _, _, _ => Except.error GErr.fuelOut
  | fuel + 1, v, depth, visited =>
    match v with
    | .vnil => Except.ok JNode.jnull
    | .vtrue => Except.ok (JNode.jbool true)
    | .vfalse => Except.ok (JNode.jbool false)
    | .vint n => Except.ok (JNode.jint n)
    | .vfloat d => dump_float opts.allow_nan d
    | .vstr s => Except.ok (JNode.jstr s)
    | .vsym s => Except.ok (JNode.jstr s)
    | .vref i =>
      if depth > MAX_NESTING_DEPTH then Except.error GErr.nestingTooDeep
      else if i ∈ visited then Except.error GErr.circularReference
      else
        match heap.get? i with
        | none => Except.error GErr.docFailure
        | some (.harr items) =>
          (items.mapM (fun x =>
            dump_ruby_object heap opts fuel x (depth + 1) (i :: visited))).map JNode.jarr
        | some (.hhash pairs) =>
          (pairs.mapM (fun (kv : RVal × RVal) => do
            let jv ← dump_ruby_object heap opts fuel kv.2 (depth + 1) (i :: visited)
            Except.ok (key_to_str kv.1, jv))).map JNode.jobj
    | .vforeign timeLike iso xml asj toS =>
      if timeLike then Except.ok (JNode.jstr (dump_time_str iso xml toS))
      else
        match try_as_json opts.mode (RVal.vforeign timeLike iso xml asj toS) with
        | RVal.vnil => Except.ok (JNode.jstr (rubyToS (RVal.vforeign timeLike iso xml asj toS)))
        | r => dump_ruby_object heap opts fuel r depth visited

/-- A chain of `n` nested Ruby arrays: heap cell `j` is `[cell (j+1)]` and
the innermost cell is the empty array; the root value is `vref 0`.  A host
structure nested exactly `n` container levels deep. -/
def nestedArrHeap (n : Nat) : Heap :=
  (List.range n).map (fun j => if j + 1 < n then HObj.harr [RVal.vref (j + 1)] else HObj.harr [])

/-- Entry point `yyjson_dump_ruby_object` (object_dumper.c lines 337-347):
depth starts at 0 with an empty visited set. -/
def yyjson_dump_ruby_object (heap : Heap) (opts : DumpOpts) (fuel : Nat) (v : RVal) :
    Except GErr JNode :=
  dump_ruby_object heap opts fuel v 0 []

/-- The `CACHE_SIZE` macro from value_builder.c line 60. -/
def CACHE_SIZE : Nat := 63

/-- The `CACHE_MAX_LEN` macro from value_builder.c line 61. -/
def CACHE_MAX_LEN : Nat := 55

/-- Embedding of `fnv1a` (value_builder.c lines 78-87): 32-bit FNV-1a over
the key bytes, with the `uint32_t` wraparound made explicit. -/
def fnv1a (s : ByteStr) : Nat :=
  s.foldl (fun h b => ((h ^^^ b) * 16777619) % 2 ^ 32) 2166136261

/-- Embedding of `fast_cmp` (value_builder.c lines 92-120): byte-wise
lexicographic comparison returning -1, 0 or 1.  The C function is only
called with two buffers of the same length `len`; bytes are compared
unsigned, which matches `memcmp`, matches the big-endian 64-bit chunk
comparison, and matches the per-byte tail on platforms where plain `char`
is unsigned. -/
def fast_cmp : ByteStr → ByteStr → Int
  | [], [] => 0
  | [], _ :: _ => -1
  | _ :: _, [] => 1
  | a :: as, b :: bs => if a < b then -1 else if b < a then 1 else fast_cmp as bs

/-- A host atom handed back for an object key: a Ruby string or symbol.
Identity (`equal?`) is the allocation index `id`; value equality is
`bytes` equality.  `make_fstr` and `rb_intern2` are modelled as returning
a fresh atom whose bytes are the key bytes — the runtime's own global
interning tables are an external collaborator and are left out, as the
spec does. -/
structure Atom where
  id : Nat
  bytes : ByteStr
deriving DecidableEq, Repr

/-- Allocator state for fresh atoms. -/
structure AllocSt where
  next : Nat
deriving DecidableEq, Repr

/-- Allocation of a fresh atom with the given bytes. -/
def alloc_atom (st : AllocSt) (s : ByteStr) : Atom × AllocSt :=
  ({ id := st.next, bytes := s }, { next := st.next + 1 })

/-- The `cache_entry_t` struct from value_builder.c lines 63-68. -/
structure CacheEntry where
  ptr : ByteStr
  len : Nat
  hash : Nat
  val : Atom
deriving DecidableEq, Repr

/-- The sorted entry array of a `string_cache_t` (value_builder.c lines
70-73); its `len` field is the list length. -/
abbrev Cache := List CacheEntry

/-- The loop of `cache_search` (value_builder.c lines 166-189) with the
iteration count made explicit as `fuel` (each iteration strictly shrinks
`hi - lo`, so `length + 1` iterations always suffice; the fuel-out branch
is unreachable at the call site).  Returns the matching index when the
probe key is found and `-(lo + 1)` (the insertion point, encoded) when it
is not. -/
def cache_search_loop (c : Cache) (s : ByteStr) (len : Nat) (h : Nat) :
    Nat → Int → Int → Int
  | 0, lo, _ => -(lo + 1)
  | fuel + 1, lo, hi =>
    if lo > hi then -(lo + 1)
    else
      let mid := (lo + hi) / 2
      match c.get? mid.toNat with
      | none => -(lo + 1)
      | some e =>
        if e.hash < h then cache_search_loop c s len h fuel (mid + 1) hi
        else if e.hash > h then cache_search_loop c s len h fuel lo (mid - 1)
        else if e.len < len then cache_search_loop c s len h fuel (mid + 1) hi
        else if e.len > len then cache_search_loop c s len h fuel lo (mid - 1)
        else
          let cmp := fast_cmp s e.ptr
          if cmp = 0 then mid
          else if cmp > 0 then cache_search_loop c s len h fuel (mid + 1) hi
          else cache_search_loop c s len h fuel lo (mid - 1)

/-- Embedding of `cache_search` (value_builder.c lines 166-189): binary
search over the entry array sorted by (hash, then length, then bytes),
starting from `lo = 0`, `hi = len - 1`. -/
def cache_search (c : Cache) (s : ByteStr) (len : Nat) (h : Nat) : Int :=
  cache_search_loop c s len h (c.length + 1) 0 ((c.length : Int) - 1)

/-- Embedding of `cache_insert` (value_builder.c lines 194-202): a no-op
once the cache holds `CACHE_SIZE` entries, otherwise the new entry is
placed at position `pos` and the later entries shift up. -/
def cache_insert (c : Cache) (pos : Nat) (s : ByteStr) (len : Nat) (h : Nat) (v : Atom) :
    Cache :=
  if c.length ≥ CACHE_SIZE then c
  else c.take pos ++ { ptr := s, len := len, hash := h, val := v } :: c.drop pos

/-- The `isalpha` test on an unsigned byte, for the ASCII locale the
extension runs in. -/
def isalphaB (b : Nat) : Bool :=
  (65 ≤ b && b ≤ 90) || (97 ≤ b && b ≤ 122)

/-- The eligibility guard shared by `get_str_key` and `get_sym_key`
(value_builder.c lines 210 and 230): a key is served from the cache unless
it is longer than `CACHE_MAX_LEN`, empty, or starts with a non-letter. -/
def cache_eligible (s : ByteStr) : Bool :=
  !(decide (s.length > CACHE_MAX_LEN) || decide (s.length = 0) || !isalphaB (s.headD 0))

/-- Embedding of `get_str_key` (value_builder.c lines 207-222): an
ineligible key bypasses the cache and allocates directly; otherwise the
sorted cache is probed by (FNV-1a hash, length, bytes), a hit returns the
cached atom unchanged, and a miss allocates and inserts at the returned
insertion point.  `get_sym_key` (lines 227-242) is the same procedure with
`rb_intern2` in place of `make_fstr`; both allocators are modelled by
`alloc_atom`, so the two functions coincide in the model. -/
def get_str_key (c : Cache) (st : AllocSt) (s : ByteStr) : Atom × Cache × AllocSt :=
  if !cache_eligible s then
    let (a, st') := alloc_atom st s
    (a, c, st')
  else
    let h := fnv1a s
    let idx := cache_search c s s.length h
    if 0 ≤ idx then
      match c.get? idx.toNat with
      | some e => (e.val, c, st)
      | none =>
        let (a, st') := alloc_atom st s
        (a, c, st')
    else
      let (a, st') := alloc_atom st s
      (a, cache_insert c (-(idx + 1)).toNat s s.length h a, st')

/-- Embedding of `get_sym_key` (value_builder.c lines 227-242); see
`get_str_key`. -/
def get_sym_key (c : Cache) (st : AllocSt) (s : ByteStr) : Atom × Cache × AllocSt :=
  get_str_key c st s

/-- A sequence of key lookups through one cache within a single import
call, returning the atom produced for each key in order together with the
final cache and allocator states. -/
def run_keys_from (c : Cache) (st : AllocSt) : List ByteStr → List Atom × Cache × AllocSt
  | [] => ([], c, st)
  | k :: ks =>
    let r := get_str_key c st k
    let rest := run_keys_from r.2.1 r.2.2 ks
    (r.1 :: rest.1, rest.2)

/-- The key lookups of one import call, starting (as
`yyjson_build_ruby_object` does) from an empty cache. -/
def run_keys (ks : List ByteStr) : List Atom × Cache × AllocSt :=
  run_keys_from [] { next := 0 } ks

/-- The cache state after serving a prefix of keys. -/
def cache_after (c : Cache) (st : AllocSt) (keys : List ByteStr) : Cache :=
  (run_keys_from c st keys).2.1

/-- The strict order the cache is kept sorted in: primarily by hash, then
by length, then by byte-wise comparison. -/
def entry_key_lt (h1 l1 : Nat) (s1 : ByteStr) (h2 l2 : Nat) (s2 : ByteStr) : Prop :=
  h1 < h2 ∨ (h1 = h2 ∧ (l1 < l2 ∨ (l1 = l2 ∧ fast_cmp s1 s2 < 0)))

instance (h1 l1 : Nat) (s1 : ByteStr) (h2 l2 : Nat) (s2 : ByteStr) :
    Decidable (entry_key_lt h1 l1 s1 h2 l2 s2) := by
  unfold entry_key_lt; infer_instance

/-- Order on cache entries induced by their (hash, length, bytes) keys. -/
def entry_lt (a b : CacheEntry) : Prop :=
  entry_key_lt a.hash a.len a.ptr b.hash b.len b.ptr

instance (a b : CacheEntry) : Decidable (entry_lt a b) := by
  unfold entry_lt; infer_instance

/-- The cache invariant: the entry array is strictly sorted by
(hash, length, bytes). -/
def CacheSorted (c : Cache) : Prop :=
  List.Pairwise entry_lt c

instance : DecidablePred CacheSorted :=
  fun c => List.instDecidablePairwise c

/-- There is a cache entry whose (hash, length, bytes) key is `k`. -/
def has_key_entry (c : Cache) (k : ByteStr) : Prop :=
  ∃ e ∈ c, e.hash = fnv1a k ∧ e.len = k.length ∧ e.ptr = k

/-- A Ruby hash that contains itself as a value: `h = \x7b "a" => h \x7d`. -/
def selfRefHashHeap : Heap :=
  [HObj.hhash [(RVal.vstr [97], RVal.vref 0)]]

/-- A cycle through an intermediate array: `h = \x7b "a" => [h] \x7d`. -/
def indirectCycleHeap : Heap :=
  [HObj.hhash [(RVal.vstr [97], RVal.vref 1)], HObj.harr [RVal.vref 0]]

/-- An acyclic array referenced twice by its (sole) parent array:
`inner = [nil]; outer = [inner, inner]`. -/
def sharedArrHeap : Heap :=
  [HObj.harr [RVal.vref 1, RVal.vref 1], HObj.harr [RVal.vnil]]

/-- An acyclic array referenced under two sibling keys of a hash. -/
def sharedHashHeap : Heap :=
  [HObj.hhash [(RVal.vstr [97], RVal.vref 1), (RVal.vstr [98], RVal.vref 1)],
   HObj.harr [RVal.vint 1]]

/-- Sixty-three pairwise distinct cache-eligible two-letter keys. -/
def cache_fillers : List ByteStr :=
  (List.range 63).map (fun i => [97 + i / 26, 97 + i % 26])

/-- The eligible key `"zz"`. -/
def zzKey : ByteStr := [122, 122]

/-- A key sequence that fills the cache to capacity with 63 distinct
eligible keys and then requests the fresh eligible key `"zz"` twice. -/
def overflow_keys : List ByteStr :=
  cache_fillers ++ [zzKey, zzKey]

/-- The engine-serialized text of the Ruby string `<a>&'`: the six content
bytes between the two `"` quote bytes (none of `<`, `>`, `&`, `'` is
escaped by the JSON writer itself). -/
def serializedLtA : ByteStr :=
  [34, 60, 97, 62, 38, 39, 34]

/-- The expected HTML-escaped serialization of the Ruby string `<a>&'`:
the 24-byte escaped payload (backslash-u003c, `a`, backslash-u003e,
backslash-u0026, backslash-u0027) inside the two surrounding quotes. -/
def escapedLtA : ByteStr :=
  [34, 92, 117, 48, 48, 51, 99, 97, 92, 117, 48, 48, 51, 101,
   92, 117, 48, 48, 50, 54, 92, 117, 48, 48, 50, 55, 34]

/- ======================  helper lemmas  ====================== -/

theorem escape_pass_eq_flatMap (s : ByteStr) : escape_pass s = s.flatMap escByte := by
  induction s with
  | nil => rfl
  | cons c rest ih => simp only [escape_pass, escByte, List.flatMap_cons, ih]

theorem flatMap_escByte_of_count_zero (s : ByteStr) (h : escape_count s = 0) :
    s.flatMap escByte = s := by
  induction s with
  | nil => rfl
  | cons c rest ih =>
    rw [escape_count] at h
    have hc : ¬(c = 60 ∨ c = 62 ∨ c = 38 ∨ c = 39) := by
      intro hor
      rw [if_pos hor] at h
      omega
    have hrest : escape_count rest = 0 := by
      rw [if_neg hc] at h
      omega
    push_neg at hc
    obtain ⟨h1, h2, h3, h4⟩ := hc
    simp [List.flatMap_cons, escByte, h1, h2, h3, h4, ih hrest]

theorem escape_html_entities_eq_flatMap (s : ByteStr) :
    escape_html_entities s = s.flatMap escByte := by
  unfold escape_html_entities
  split
  · next h => exact (flatMap_escByte_of_count_zero s h).symm
  · exact escape_pass_eq_flatMap s

theorem escape_pass_length (s : ByteStr) :
    (escape_pass s).length = s.length + 5 * escape_count s := by
  induction s with
  | nil => rfl
  | cons c rest ih =>
    by_cases hP : c = 60 ∨ c = 62 ∨ c = 38 ∨ c = 39
    · rcases hP with h | h | h | h <;> subst h <;>
        simp [escape_pass, escape_count, ih] <;> omega
    · push_neg at hP
      obtain ⟨h1, h2, h3, h4⟩ := hP
      simp [escape_pass, escape_count, h1, h2, h3, h4, ih]
      omega

theorem escape_html_entities_length (s : ByteStr) :
    (escape_html_entities s).length = s.length + 5 * escape_count s := by
  unfold escape_html_entities
  split
  · next h => rw [h]; omega
  · exact escape_pass_length s

theorem fast_cmp_self (s : ByteStr) : fast_cmp s s = 0 := by
  induction s with
  | nil => rfl
  | cons a as ih => simp [fast_cmp, ih]

theorem fast_cmp_eq_zero_iff (s t : ByteStr) : fast_cmp s t = 0 ↔ s = t := by
  induction s generalizing t with
  | nil =>
    cases t with
    | nil => simp [fast_cmp]
    | cons b bs => simp [fast_cmp]
  | cons a as ih =>
    cases t with
    | nil => simp [fast_cmp]
    | cons b bs =>
      rw [fast_cmp]
      by_cases hab : a < b
      · simp [hab]
        omega
      · rw [if_neg hab]
        by_cases hba : b < a
        · simp [hba]
          omega
        · have hab' : a = b := by omega
          rw [if_neg hba]
          simp [hab', ih]

theorem fast_cmp_cases (s t : ByteStr) :
    fast_cmp s t = -1 ∨ fast_cmp s t = 0 ∨ fast_cmp s t = 1 := by
  induction s generalizing t with
  | nil => cases t <;> simp [fast_cmp]
  | cons a as ih =>
    cases t with
    | nil => simp [fast_cmp]
    | cons b bs =>
      rw [fast_cmp]
      by_cases hab : a < b
      · simp [hab]
      · rw [if_neg hab]
        by_cases hba : b < a
        · simp [hba]
        · rw [if_neg hba]
          exact ih bs

theorem fast_cmp_antisym (s t : ByteStr) : fast_cmp s t = -1 ↔ fast_cmp t s = 1 := by
  induction s generalizing t with
  | nil =>
    cases t with
    | nil => simp [fast_cmp]
    | cons b bs => simp [fast_cmp]
  | cons a as ih =>
    cases t with
    | nil => simp [fast_cmp]
    | cons b bs =>
      rw [fast_cmp, fast_cmp]
      by_cases hab : a < b
      · have hba : ¬ b < a := by omega
        simp [hab, hba]
      · rw [if_neg hab]
        by_cases hba : b < a
        · simp [hba]
        · have hab' : ¬ a < b := hab
          rw [if_neg hba, if_neg hba, if_neg hab']
          exact ih bs

theorem fast_cmp_trans (s t u : ByteStr) (h1 : fast_cmp s t < 0) (h2 : fast_cmp t u < 0) :
    fast_cmp s u < 0 := by
  induction s generalizing t u with
  | nil =>
    cases t with
    | nil => simp [fast_cmp] at h1
    | cons b bs =>
      cases u with
      | nil => simp [fast_cmp] at h2
      | cons c cs => simp [fast_cmp]
  | cons a as ih =>
    cases t with
    | nil => simp [fast_cmp] at h1
    | cons b bs =>
      cases u with
      | nil => simp [fast_cmp] at h2
      | cons c cs =>
        rw [fast_cmp] at h1 h2 ⊢
        by_cases hbc : b < c
        · -- t < u at the head byte; h1 gives a < b or a = b
          by_cases hab : a < b
          · rw [if_pos (by omega : a < c)]
            omega
          · rw [if_neg hab] at h1
            by_cases hba : b < a
            · rw [if_pos hba] at h1
              omega
            · rw [if_pos (by omega : a < c)]
              omega
        · rw [if_neg hbc] at h2
          by_cases hcb : c < b
          · rw [if_pos hcb] at h2
            omega
          · rw [if_neg hcb] at h2
            have hbc' : b = c := by omega
            by_cases hab : a < b
            · rw [if_pos (by omega : a < c)]
              omega
            · rw [if_neg hab] at h1
              by_cases hba : b < a
              · rw [if_pos hba] at h1
                omega
              · rw [if_neg hba] at h1
                have hab' : a = b := by omega
                have hac : ¬ a < c := by omega
                have hca : ¬ c < a := by omega
                rw [if_neg hac, if_neg hca]
                subst hbc'
                exact ih bs cs h1 h2

theorem ekl_irrefl (h l : Nat) (s : ByteStr) : ¬ entry_key_lt h l s h l s := by
  intro hc
  rcases hc with hc | ⟨_, hc | ⟨_, hc⟩⟩
  · omega
  · omega
  · rw [fast_cmp_self] at hc
    omega

theorem ekl_trans {h1 l1 : Nat} {s1 : ByteStr} {h2 l2 : Nat} {s2 : ByteStr}
    {h3 l3 : Nat} {s3 : ByteStr}
    (ha : entry_key_lt h1 l1 s1 h2 l2 s2) (hb : entry_key_lt h2 l2 s2 h3 l3 s3) :
    entry_key_lt h1 l1 s1 h3 l3 s3 := by
  rcases ha with ha | ⟨hae, ha | ⟨hal, ha⟩⟩ <;>
    rcases hb with hb | ⟨hbe, hb | ⟨hbl, hb⟩⟩
  · exact Or.inl (by omega)
  · exact Or.inl (by omega)
  · exact Or.inl (by omega)
  · exact Or.inl (by omega)
  · exact Or.inr ⟨by omega, Or.inl (by omega)⟩
  · exact Or.inr ⟨by omega, Or.inl (by omega)⟩
  · exact Or.inl (by omega)
  · exact Or.inr ⟨by omega, Or.inl (by omega)⟩
  · exact Or.inr ⟨by omega, Or.inr ⟨by omega, fast_cmp_trans s1 s2 s3 ha hb⟩⟩

theorem ekl_eq_of_not_lt {h1 l1 : Nat} {s1 : ByteStr} {h2 l2 : Nat} {s2 : ByteStr}
    (ha : ¬ entry_key_lt h1 l1 s1 h2 l2 s2) (hb : ¬ entry_key_lt h2 l2 s2 h1 l1 s1) :
    h1 = h2 ∧ l1 = l2 ∧ s1 = s2 := by
  have he : h1 = h2 := by
    by_contra hne
    rcases Nat.lt_or_ge h1 h2 with h | h
    · exact ha (Or.inl h)
    · exact hb (Or.inl (by omega))
  subst he
  have hl : l1 = l2 := by
    by_contra hne
    rcases Nat.lt_or_ge l1 l2 with h | h
    · exact ha (Or.inr ⟨rfl, Or.inl h⟩)
    · exact hb (Or.inr ⟨rfl, Or.inl (by omega)⟩)
  subst hl
  refine ⟨rfl, rfl, ?_⟩
  have hc1 : ¬ fast_cmp s1 s2 < 0 := fun h => ha (Or.inr ⟨rfl, Or.inr ⟨rfl, h⟩⟩)
  have hc2 : ¬ fast_cmp s2 s1 < 0 := fun h => hb (Or.inr ⟨rfl, Or.inr ⟨rfl, h⟩⟩)
  rcases fast_cmp_cases s1 s2 with h | h | h
  · exact absurd (by rw [h]; norm_num) hc1
  · exact (fast_cmp_eq_zero_iff s1 s2).mp h
  · have h' : fast_cmp s2 s1 = -1 := (fast_cmp_antisym s2 s1).mpr h
    exact absurd (by rw [h']; norm_num) hc2

theorem sorted_entry_lt_of_lt {c : Cache} (hs : CacheSorted c) {i j : Nat}
    {ei ej : CacheEntry} (hgi : c.get? i = some ei) (hgj : c.get? j = some ej)
    (hij : i < j) : entry_lt ei ej := by
  rw [List.get?_eq_some] at hgi hgj
  obtain ⟨hi, hgi⟩ := hgi
  obtain ⟨hj, hgj⟩ := hgj
  have hp := List.pairwise_iff_get.mp hs ⟨i, hi⟩ ⟨j, hj⟩ hij
  rw [hgi, hgj] at hp
  exact hp

theorem cache_search_loop_spec (c : Cache) (s : ByteStr) (len hsh : Nat)
    (hs : CacheSorted c) :
    ∀ (fuel : Nat) (lo hi : Int), 0 ≤ lo → lo ≤ hi + 1 → hi < (c.length : Int) →
      hi - lo + 1 ≤ (fuel : Int) →
      (∀ (i : Nat) (e : CacheEntry), c.get? i = some e → (i : Int) < lo →
        entry_key_lt e.hash e.len e.ptr hsh len s) →
      (∀ (i : Nat) (e : CacheEntry), c.get? i = some e → hi < (i : Int) →
        entry_key_lt hsh len s e.hash e.len e.ptr) →
      (0 ≤ cache_search_loop c s len hsh fuel lo hi →
        ∃ e, c.get? (cache_search_loop c s len hsh fuel lo hi).toNat = some e ∧
          e.hash = hsh ∧ e.len = len ∧ e.ptr = s)
      ∧ (cache_search_loop c s len hsh fuel lo hi < 0 →
          0 ≤ -(cache_search_loop c s len hsh fuel lo hi + 1)
          ∧ -(cache_search_loop c s len hsh fuel lo hi + 1) ≤ (c.length : Int)
          ∧ (∀ (i : Nat) (e : CacheEntry), c.get? i = some e →
              (i : Int) < -(cache_search_loop c s len hsh fuel lo hi + 1) →
              entry_key_lt e.hash e.len e.ptr hsh len s)
          ∧ (∀ (i : Nat) (e : CacheEntry), c.get? i = some e →
              -(cache_search_loop c s len hsh fuel lo hi + 1) ≤ (i : Int) →
              entry_key_lt hsh len s e.hash e.len e.ptr)) := by
  intro fuel
  induction fuel with
  | zero =>
    intro lo hi hlo0 hlohi hhilen hfuel hinvlo hinvhi
    rw [cache_search_loop]
    constructor
    · intro h
      exfalso
      omega
    · intro _
      refine ⟨by omega, by omega, ?_, ?_⟩
      · intro i e hge hilt
        exact hinvlo i e hge (by omega)
      · intro i e hge hige
        exact hinvhi i e hge (by omega)
  | succ fuel ih =>
    intro lo hi hlo0 hlohi hhilen hfuel hinvlo hinvhi
    by_cases hgtlohi : lo > hi
    · have hstep : cache_search_loop c s len hsh (fuel + 1) lo hi = -(lo + 1) := by
        rw [cache_search_loop, if_pos hgtlohi]
      rw [hstep]
      constructor
      · intro h
        exfalso
        omega
      · intro _
        refine ⟨by omega, by omega, ?_, ?_⟩
        · intro i e hge hilt
          exact hinvlo i e hge (by omega)
        · intro i e hge hige
          exact hinvhi i e hge (by omega)
    · have hlohi' : lo ≤ hi := by omega
      have hmidlo : lo ≤ (lo + hi) / 2 := by omega
      have hmidhi : (lo + hi) / 2 ≤ hi := by omega
      have hmid0 : 0 ≤ (lo + hi) / 2 := by omega
      have hmidnat : (((lo + hi) / 2).toNat : Int) = (lo + hi) / 2 :=
        Int.toNat_of_nonneg hmid0
      have hmidlt : ((lo + hi) / 2).toNat < c.length := by omega
      obtain ⟨e, hge⟩ : ∃ e, c.get? ((lo + hi) / 2).toNat = some e := by
        cases hcg : c.get? ((lo + hi) / 2).toNat with
        | none => exact absurd (List.get?_eq_none.mp hcg) (by omega)
        | some e => exact ⟨e, rfl⟩
      have hstep : cache_search_loop c s len hsh (fuel + 1) lo hi =
          (if e.hash < hsh then cache_search_loop c s len hsh fuel ((lo + hi) / 2 + 1) hi
           else if e.hash > hsh then cache_search_loop c s len hsh fuel lo ((lo + hi) / 2 - 1)
           else if e.len < len then cache_search_loop c s len hsh fuel ((lo + hi) / 2 + 1) hi
           else if e.len > len then cache_search_loop c s len hsh fuel lo ((lo + hi) / 2 - 1)
           else
             if fast_cmp s e.ptr = 0 then (lo + hi) / 2
             else if fast_cmp s e.ptr > 0 then
               cache_search_loop c s len hsh fuel ((lo + hi) / 2 + 1) hi
             else cache_search_loop c s len hsh fuel lo ((lo + hi) / 2 - 1)) := by
        rw [cache_search_loop, if_neg hgtlohi]
        dsimp only
        rw [hge]
      rw [hstep]
      have go_right : entry_key_lt e.hash e.len e.ptr hsh len s →
          (0 ≤ cache_search_loop c s len hsh fuel ((lo + hi) / 2 + 1) hi →
            ∃ e', c.get? (cache_search_loop c s len hsh fuel ((lo + hi) / 2 + 1) hi).toNat
                = some e' ∧ e'.hash = hsh ∧ e'.len = len ∧ e'.ptr = s)
          ∧ (cache_search_loop c s len hsh fuel ((lo + hi) / 2 + 1) hi < 0 →
              0 ≤ -(cache_search_loop c s len hsh fuel ((lo + hi) / 2 + 1) hi + 1)
              ∧ -(cache_search_loop c s len hsh fuel ((lo + hi) / 2 + 1) hi + 1)
                  ≤ (c.length : Int)
              ∧ (∀ (i : Nat) (e' : CacheEntry), c.get? i = some e' →
                  (i : Int) < -(cache_search_loop c s len hsh fuel ((lo + hi) / 2 + 1) hi + 1) →
                  entry_key_lt e'.hash e'.len e'.ptr hsh len s)
              ∧ (∀ (i : Nat) (e' : CacheEntry), c.get? i = some e' →
                  -(cache_search_loop c s len hsh fuel ((lo + hi) / 2 + 1) hi + 1) ≤ (i : Int) →
                  entry_key_lt hsh len s e'.hash e'.len e'.ptr)) := by
        intro hlt_e
        refine ih ((lo + hi) / 2 + 1) hi (by omega) (by omega) hhilen (by omega) ?_ hinvhi
        intro i e' hge' hilt
        by_cases hci : (i : Int) < lo
        · exact hinvlo i e' hge' hci
        · have hile : i ≤ ((lo + hi) / 2).toNat := by omega
          rcases Nat.lt_or_ge i ((lo + hi) / 2).toNat with hi2 | hi2
          · exact ekl_trans (sorted_entry_lt_of_lt hs hge' hge hi2) hlt_e
          · have : i = ((lo + hi) / 2).toNat := by omega
            subst this
            rw [hge] at hge'
            cases hge'
            exact hlt_e
      have go_left : entry_key_lt hsh len s e.hash e.len e.ptr →
          (0 ≤ cache_search_loop c s len hsh fuel lo ((lo + hi) / 2 - 1) →
            ∃ e', c.get? (cache_search_loop c s len hsh fuel lo ((lo + hi) / 2 - 1)).toNat
                = some e' ∧ e'.hash = hsh ∧ e'.len = len ∧ e'.ptr = s)
          ∧ (cache_search_loop c s len hsh fuel lo ((lo + hi) / 2 - 1) < 0 →
              0 ≤ -(cache_search_loop c s len hsh fuel lo ((lo + hi) / 2 - 1) + 1)
              ∧ -(cache_search_loop c s len hsh fuel lo ((lo + hi) / 2 - 1) + 1)
                  ≤ (c.length : Int)
              ∧ (∀ (i : Nat) (e' : CacheEntry), c.get? i = some e' →
                  (i : Int) < -(cache_search_loop c s len hsh fuel lo ((lo + hi) / 2 - 1) + 1) →
                  entry_key_lt e'.hash e'.len e'.ptr hsh len s)
              ∧ (∀ (i : Nat) (e' : CacheEntry), c.get? i = some e' →
                  -(cache_search_loop c s len hsh fuel lo ((lo + hi) / 2 - 1) + 1) ≤ (i : Int) →
                  entry_key_lt hsh len s e'.hash e'.len e'.ptr)) := by
        intro hgt_e
        refine ih lo ((lo + hi) / 2 - 1) hlo0 (by omega) (by omega) (by omega) hinvlo ?_
        intro i e' hge' hige
        by_cases hci : hi < (i : Int)
        · exact hinvhi i e' hge' hci
        · rcases Nat.lt_or_ge ((lo + hi) / 2).toNat i with hi2 | hi2
          · exact ekl_trans hgt_e (sorted_entry_lt_of_lt hs hge hge' hi2)
          · have : i = ((lo + hi) / 2).toNat := by omega
            subst this
            rw [hge] at hge'
            cases hge'
            exact hgt_e
      by_cases hb1 : e.hash < hsh
      · rw [if_pos hb1]
        exact go_right (Or.inl hb1)
      · rw [if_neg hb1]
        by_cases hb2 : e.hash > hsh
        · rw [if_pos hb2]
          exact go_left (Or.inl hb2)
        · rw [if_neg hb2]
          have hheq : e.hash = hsh := by omega
          by_cases hb3 : e.len < len
          · rw [if_pos hb3]
            exact go_right (Or.inr ⟨hheq, Or.inl hb3⟩)
          · rw [if_neg hb3]
            by_cases hb4 : e.len > len
            · rw [if_pos hb4]
              exact go_left (Or.inr ⟨hheq.symm, Or.inl hb4⟩)
            · rw [if_neg hb4]
              have hleq : e.len = len := by omega
              by_cases hb5 : fast_cmp s e.ptr = 0
              · rw [if_pos hb5]
                constructor
                · intro _
                  refine ⟨e, ?_, hheq, hleq, ?_⟩
                  · rw [hge]
                  · exact ((fast_cmp_eq_zero_iff s e.ptr).mp hb5).symm
                · intro hneg
                  exfalso
                  omega
              · rw [if_neg hb5]
                by_cases hb6 : fast_cmp s e.ptr > 0
                · rw [if_pos hb6]
                  have hcm : fast_cmp s e.ptr = 1 := by
                    rcases fast_cmp_cases s e.ptr with h | h | h <;> omega
                  have hrev : fast_cmp e.ptr s = -1 := (fast_cmp_antisym e.ptr s).mpr hcm
                  exact go_right (Or.inr ⟨hheq, Or.inr ⟨hleq, by omega⟩⟩)
                · rw [if_neg hb6]
                  have hcm : fast_cmp s e.ptr < 0 := by
                    rcases fast_cmp_cases s e.ptr with h | h | h <;> omega
                  exact go_left (Or.inr ⟨hheq.symm, Or.inr ⟨hleq.symm, hcm⟩⟩)

theorem cache_search_spec_top (c : Cache) (s : ByteStr) (len hsh : Nat)
    (hs : CacheSorted c) :
    (0 ≤ cache_search c s len hsh →
      ∃ e, c.get? (cache_search c s len hsh).toNat = some e ∧
        e.hash = hsh ∧ e.len = len ∧ e.ptr = s)
    ∧ (cache_search c s len hsh < 0 →
        0 ≤ -(cache_search c s len hsh + 1)
        ∧ -(cache_search c s len hsh + 1) ≤ (c.length : Int)
        ∧ (∀ (i : Nat) (e : CacheEntry), c.get? i = some e →
            (i : Int) < -(cache_search c s len hsh + 1) →
            entry_key_lt e.hash e.len e.ptr hsh len s)
        ∧ (∀ (i : Nat) (e : CacheEntry), c.get? i = some e →
            -(cache_search c s len hsh + 1) ≤ (i : Int) →
            entry_key_lt hsh len s e.hash e.len e.ptr)) := by
  have hinvlo : ∀ (i : Nat) (e : CacheEntry), c.get? i = some e → (i : Int) < 0 →
      entry_key_lt e.hash e.len e.ptr hsh len s := by
    intro i e _ hlt
    exfalso
    omega
  have hinvhi : ∀ (i : Nat) (e : CacheEntry), c.get? i = some e →
      (c.length : Int) - 1 < (i : Int) →
      entry_key_lt hsh len s e.hash e.len e.ptr := by
    intro i e hg hgt
    exfalso
    obtain ⟨hilen, _⟩ := List.get?_eq_some.mp hg
    omega
  exact cache_search_loop_spec c s len hsh hs (c.length + 1) 0 ((c.length : Int) - 1)
    (by omega) (by omega) (by omega) (by push_cast; omega) hinvlo hinvhi

theorem cache_search_found {c : Cache} {s : ByteStr} {len hsh : Nat} {e : CacheEntry}
    (hs : CacheSorted c) (he : e ∈ c) (hh : e.hash = hsh) (hl : e.len = len)
    (hp : e.ptr = s) :
    0 ≤ cache_search c s len hsh ∧ c.get? (cache_search c s len hsh).toNat = some e := by
  obtain ⟨i0, hgi0⟩ := List.mem_iff_get?.mp he
  have hspec := cache_search_spec_top c s len hsh hs
  by_cases hr : 0 ≤ cache_search c s len hsh
  · obtain ⟨e', hge', hh', hl', hp'⟩ := hspec.1 hr
    have heq : e' = e := by
      by_cases hieq : (cache_search c s len hsh).toNat = i0
      · rw [hieq, hgi0] at hge'
        exact (Option.some_inj.mp hge').symm
      · exfalso
        rcases Nat.lt_or_ge (cache_search c s len hsh).toNat i0 with hlt | hge2
        · have hord := sorted_entry_lt_of_lt hs hge' hgi0 hlt
          rw [entry_lt, hh', hl', hp', hh, hl, hp] at hord
          exact ekl_irrefl hsh len s hord
        · have hlt2 : i0 < (cache_search c s len hsh).toNat := by omega
          have hord := sorted_entry_lt_of_lt hs hgi0 hge' hlt2
          rw [entry_lt, hh', hl', hp', hh, hl, hp] at hord
          exact ekl_irrefl hsh len s hord
    exact ⟨hr, heq ▸ hge'⟩
  · exfalso
    have hrneg : cache_search c s len hsh < 0 := by omega
    obtain ⟨hp0, hplen, hbelow, habove⟩ := hspec.2 hrneg
    rcases Int.lt_or_le (i0 : Int) (-(cache_search c s len hsh + 1)) with hc | hc
    · have := hbelow i0 e hgi0 hc
      rw [hh, hl, hp] at this
      exact ekl_irrefl hsh len s this
    · have := habove i0 e hgi0 hc
      rw [hh, hl, hp] at this
      exact ekl_irrefl hsh len s this

theorem cache_search_miss {c : Cache} {s : ByteStr} {len hsh : Nat}
    (hs : CacheSorted c)
    (habs : ∀ e ∈ c, ¬(e.hash = hsh ∧ e.len = len ∧ e.ptr = s)) :
    cache_search c s len hsh < 0
    ∧ (-(cache_search c s len hsh + 1)).toNat ≤ c.length
    ∧ (∀ (i : Nat) (e : CacheEntry), c.get? i = some e →
        i < (-(cache_search c s len hsh + 1)).toNat →
        entry_key_lt e.hash e.len e.ptr hsh len s)
    ∧ (∀ (i : Nat) (e : CacheEntry), c.get? i = some e →
        (-(cache_search c s len hsh + 1)).toNat ≤ i →
        entry_key_lt hsh len s e.hash e.len e.ptr) := by
  have hspec := cache_search_spec_top c s len hsh hs
  have hrneg : cache_search c s len hsh < 0 := by
    by_contra hge
    push_neg at hge
    obtain ⟨e, hge', hh, hl, hp⟩ := hspec.1 hge
    exact habs e (List.get?_mem hge') ⟨hh, hl, hp⟩
  obtain ⟨hp0, hplen, hbelow, habove⟩ := hspec.2 hrneg
  refine ⟨hrneg, by omega, ?_, ?_⟩
  · intro i e hg hlt
    exact hbelow i e hg (by omega)
  · intro i e hg hge2
    exact habove i e hg (by omega)

theorem mem_insert_list {c : Cache} {p : Nat} {x e : CacheEntry} (he : e ∈ c) :
    e ∈ c.take p ++ x :: c.drop p := by
  conv at he => rw [← List.take_append_drop p c]
  rcases List.mem_append.mp he with h | h
  · exact List.mem_append.mpr (Or.inl h)
  · exact List.mem_append.mpr (Or.inr (List.mem_cons_of_mem x h))

theorem insert_list_length {c : Cache} {p : Nat} (hp : p ≤ c.length) (en : CacheEntry) :
    (c.take p ++ en :: c.drop p).length = c.length + 1 := by
  simp [List.length_append, List.length_take, List.length_drop]
  omega

theorem cache_insert_sorted {c : Cache} {p : Nat} {s : ByteStr} {len hsh : Nat}
    (hs : CacheSorted c) (hple : p ≤ c.length)
    (hbelow : ∀ (i : Nat) (e : CacheEntry), c.get? i = some e → i < p →
      entry_key_lt e.hash e.len e.ptr hsh len s)
    (habove : ∀ (i : Nat) (e : CacheEntry), c.get? i = some e → p ≤ i →
      entry_key_lt hsh len s e.hash e.len e.ptr)
    (v : Atom) :
    CacheSorted (c.take p ++ { ptr := s, len := len, hash := hsh, val := v } :: c.drop p) := by
  have hsplit : List.Pairwise entry_lt (c.take p ++ c.drop p) := by
    rw [List.take_append_drop]
    exact hs
  rw [List.pairwise_append] at hsplit
  obtain ⟨htake, hdrop, hcross⟩ := hsplit
  rw [CacheSorted, List.pairwise_append]
  refine ⟨htake, ?_, ?_⟩
  · refine List.Pairwise.cons ?_ hdrop
    intro b hb
    obtain ⟨n, hgn⟩ := List.mem_iff_get?.mp hb
    rw [List.get?_drop] at hgn
    exact habove (p + n) b hgn (by omega)
  · intro a ha b hbmem
    obtain ⟨n, hgn⟩ := List.mem_iff_get?.mp ha
    have hnp : n < p := by
      obtain ⟨hlt, _⟩ := List.get?_eq_some.mp hgn
      rw [List.length_take] at hlt
      omega
    rw [List.get?_take hnp] at hgn
    rcases List.mem_cons.mp hbmem with rfl | hbd
    · exact hbelow n a hgn hnp
    · exact hcross a ha b hbd

theorem get_str_key_ineligible {c : Cache} {st : AllocSt} {s : ByteStr}
    (h : cache_eligible s = false) :
    get_str_key c st s = ({ id := st.next, bytes := s }, c, { next := st.next + 1 }) := by
  simp [get_str_key, h, alloc_atom]

theorem get_str_key_hit {c : Cache} {st : AllocSt} {s : ByteStr} {e : CacheEntry}
    (hs : CacheSorted c) (helig : cache_eligible s = true)
    (he : e ∈ c) (hh : e.hash = fnv1a s) (hl : e.len = s.length) (hp : e.ptr = s) :
    get_str_key c st s = (e.val, c, st) := by
  obtain ⟨hr0, hget⟩ := cache_search_found hs he hh hl hp
  rw [get_str_key, helig, Bool.not_true]
  rw [if_neg (by exact Bool.false_ne_true)]
  dsimp only
  rw [if_pos hr0, hget]

theorem get_str_key_miss {c : Cache} {s : ByteStr} (st : AllocSt)
    (hs : CacheSorted c) (helig : cache_eligible s = true)
    (habs : ∀ e ∈ c, ¬(e.hash = fnv1a s ∧ e.len = s.length ∧ e.ptr = s)) :
    get_str_key c st s =
      ({ id := st.next, bytes := s },
       cache_insert c (-(cache_search c s s.length (fnv1a s) + 1)).toNat s s.length (fnv1a s)
         { id := st.next, bytes := s },
       { next := st.next + 1 }) := by
  obtain ⟨hneg, _, _, _⟩ := cache_search_miss hs habs
  rw [get_str_key, helig, Bool.not_true]
  rw [if_neg (by exact Bool.false_ne_true)]
  dsimp only
  rw [if_neg (show ¬(0 : Int) ≤ cache_search c s s.length (fnv1a s) by omega)]
  rfl

theorem get_str_key_cache_props {c : Cache} (hs : CacheSorted c) (st : AllocSt)
    (s : ByteStr) :
    CacheSorted (get_str_key c st s).2.1
    ∧ (∀ e ∈ c, e ∈ (get_str_key c st s).2.1)
    ∧ ((get_str_key c st s).2.1 = c ∨
        (c.length < CACHE_SIZE ∧ ∃ (p : Nat) (en : CacheEntry), p ≤ c.length ∧
          (get_str_key c st s).2.1 = c.take p ++ en :: c.drop p))
    ∧ (CACHE_SIZE ≤ c.length → (get_str_key c st s).2.1 = c) := by
  by_cases helig : cache_eligible s = true
  · by_cases hex : ∃ e ∈ c, e.hash = fnv1a s ∧ e.len = s.length ∧ e.ptr = s
    · obtain ⟨e, he, hh, hl, hp⟩ := hex
      rw [get_str_key_hit hs helig he hh hl hp]
      exact ⟨hs, fun e' h => h, Or.inl rfl, fun _ => rfl⟩
    · have habs : ∀ e ∈ c, ¬(e.hash = fnv1a s ∧ e.len = s.length ∧ e.ptr = s) :=
        fun e he hcon => hex ⟨e, he, hcon⟩
      rw [get_str_key_miss st hs helig habs]
      dsimp only
      rw [cache_insert]
      by_cases hfull : c.length ≥ CACHE_SIZE
      · rw [if_pos hfull]
        exact ⟨hs, fun e' h => h, Or.inl rfl, fun _ => rfl⟩
      · rw [if_neg hfull]
        obtain ⟨hneg, hple, hbelow, habove⟩ := cache_search_miss hs habs
        have hsorted' := cache_insert_sorted hs hple hbelow habove
          { id := st.next, bytes := s }
        refine ⟨hsorted', fun e' h => mem_insert_list h, ?_, ?_⟩
        · exact Or.inr ⟨by omega, _, _, hple, rfl⟩
        · intro h
          exfalso
          omega
  · have helig' : cache_eligible s = false := by
      cases h : cache_eligible s
      · rfl
      · exact absurd h helig
    rw [get_str_key_ineligible helig']
    exact ⟨hs, fun e' h => h, Or.inl rfl, fun _ => rfl⟩

theorem get_str_key_length {c : Cache} (hs : CacheSorted c) (st : AllocSt) (s : ByteStr)
    (hlen : c.length ≤ CACHE_SIZE) : (get_str_key c st s).2.1.length ≤ CACHE_SIZE := by
  rcases (get_str_key_cache_props hs st s).2.2.1 with h | ⟨hlt, p, en, hple, h⟩
  · rw [h]
    exact hlen
  · rw [h, insert_list_length hple]
    omega

theorem cache_after_cons (c : Cache) (st : AllocSt) (k : ByteStr) (ks : List ByteStr) :
    cache_after c st (k :: ks) =
      cache_after (get_str_key c st k).2.1 (get_str_key c st k).2.2 ks := rfl

theorem run_keys_from_cons (c : Cache) (st : AllocSt) (k : ByteStr) (ks : List ByteStr) :
    run_keys_from c st (k :: ks) =
      ((get_str_key c st k).1 ::
        (run_keys_from (get_str_key c st k).2.1 (get_str_key c st k).2.2 ks).1,
       (run_keys_from (get_str_key c st k).2.1 (get_str_key c st k).2.2 ks).2) := rfl

theorem run_keys_from_props (ks : List ByteStr) :
    ∀ (c : Cache) (st : AllocSt), CacheSorted c →
      CacheSorted (run_keys_from c st ks).2.1
      ∧ (∀ e ∈ c, e ∈ (run_keys_from c st ks).2.1)
      ∧ (c.length ≤ CACHE_SIZE → (run_keys_from c st ks).2.1.length ≤ CACHE_SIZE) := by
  induction ks with
  | nil =>
    intro c st hs
    exact ⟨hs, fun e h => h, fun h => h⟩
  | cons k rest ih =>
    intro c st hs
    have hstep := get_str_key_cache_props hs st k
    have hrec := ih (get_str_key c st k).2.1 (get_str_key c st k).2.2 hstep.1
    rw [run_keys_from_cons]
    refine ⟨hrec.1, ?_, ?_⟩
    · intro e he
      exact hrec.2.1 e (hstep.2.1 e he)
    · intro hlen
      exact hrec.2.2 (get_str_key_length hs st k hlen)

theorem run_results_of_entry {k : ByteStr} {e : CacheEntry}
    (helig : cache_eligible k = true) (hh : e.hash = fnv1a k) (hl : e.len = k.length)
    (hp : e.ptr = k) :
    ∀ (ks : List ByteStr) (n : Nat) (c : Cache) (st : AllocSt), CacheSorted c → e ∈ c →
      ks.get? n = some k → (run_keys_from c st ks).1.get? n = some e.val := by
  intro ks
  induction ks with
  | nil =>
    intro n c st _ _ hgn
    simp at hgn
  | cons k0 rest ih =>
    intro n c st hs he hgn
    cases n with
    | zero =>
      have hk0 : k0 = k := by simpa using hgn
      subst hk0
      rw [run_keys_from_cons, List.get?_cons_zero,
        get_str_key_hit hs helig he hh hl hp]
    | succ n' =>
      have hstep := get_str_key_cache_props hs st k0
      have hrec := ih n' (get_str_key c st k0).2.1 (get_str_key c st k0).2.2 hstep.1
        (hstep.2.1 e he) (by simpa using hgn)
      rw [run_keys_from_cons, List.get?_cons_succ]
      exact hrec

theorem run_identical_aux :
    ∀ (i : Nat) (keys : List ByteStr) (c : Cache) (st : AllocSt) (j : Nat) (k : ByteStr),
      CacheSorted c → cache_eligible k = true → i < j →
      keys.get? i = some k → keys.get? j = some k →
      ((cache_after c st (keys.take i)).length < CACHE_SIZE ∨
        has_key_entry (cache_after c st (keys.take i)) k) →
      ∃ a, (run_keys_from c st keys).1.get? i = some a
        ∧ (run_keys_from c st keys).1.get? j = some a := by
  intro i
  induction i with
  | zero =>
    intro keys c st j k hs helig hij hgi hgj hcap
    cases keys with
    | nil => simp at hgi
    | cons k0 rest =>
      have hk0 : k0 = k := by simpa using hgi
      subst hk0
      cases j with
      | zero => omega
      | succ j' =>
        have hgj' : rest.get? j' = some k0 := by simpa using hgj
        by_cases hex : ∃ e ∈ c, e.hash = fnv1a k0 ∧ e.len = k0.length ∧ e.ptr = k0
        · obtain ⟨e, he, hh, hl, hp⟩ := hex
          refine ⟨e.val, ?_, ?_⟩
          · rw [run_keys_from_cons, List.get?_cons_zero,
              get_str_key_hit hs helig he hh hl hp]
          · rw [run_keys_from_cons, List.get?_cons_succ,
              get_str_key_hit hs helig he hh hl hp]
            exact run_results_of_entry helig hh hl hp rest j' c st hs he hgj'
        · have habs : ∀ e ∈ c, ¬(e.hash = fnv1a k0 ∧ e.len = k0.length ∧ e.ptr = k0) :=
            fun e he hcon => hex ⟨e, he, hcon⟩
          have hlen : c.length < CACHE_SIZE := by
            rcases hcap with h | h
            · exact h
            · exfalso
              obtain ⟨e, he, hcon⟩ := h
              exact habs e he hcon
          obtain ⟨hneg, hple, hbelow, habove⟩ := cache_search_miss hs habs
          have hmiss := get_str_key_miss st hs helig habs
          have hsorted₁ := cache_insert_sorted hs hple hbelow habove
            { id := st.next, bytes := k0 }
          refine ⟨{ id := st.next, bytes := k0 }, ?_, ?_⟩
          · rw [run_keys_from_cons, List.get?_cons_zero, hmiss]
          · rw [run_keys_from_cons, List.get?_cons_succ, hmiss]
            dsimp only
            rw [cache_insert, if_neg (by omega)]
            refine @run_results_of_entry k0 { ptr := k0, len := k0.length, hash := fnv1a k0, val := { id := st.next, bytes := k0 } } helig rfl rfl rfl rest j' _ _ hsorted₁ ?_ hgj'
            exact List.mem_append.mpr (Or.inr (List.mem_cons_self _ _))
  | succ i' ih =>
    intro keys c st j k hs helig hij hgi hgj hcap
    cases keys with
    | nil => simp at hgi
    | cons k0 rest =>
      cases j with
      | zero => omega
      | succ j' =>
        have hstep := get_str_key_cache_props hs st k0
        have hgi' : rest.get? i' = some k := by simpa using hgi
        have hgj' : rest.get? j' = some k := by simpa using hgj
        have hcap' : ((cache_after (get_str_key c st k0).2.1 (get_str_key c st k0).2.2
              (rest.take i')).length < CACHE_SIZE ∨
            has_key_entry (cache_after (get_str_key c st k0).2.1
              (get_str_key c st k0).2.2 (rest.take i')) k) := by
          rw [← cache_after_cons]
          exact hcap
        obtain ⟨a, ha1, ha2⟩ := ih rest (get_str_key c st k0).2.1 (get_str_key c st k0).2.2
          j' k hstep.1 helig (by omega) hgi' hgj' hcap'
        refine ⟨a, ?_, ?_⟩
        · rw [run_keys_from_cons, List.get?_cons_succ]
          exact ha1
        · rw [run_keys_from_cons, List.get?_cons_succ]
          exact ha2

/- ======================  claim theorems  ====================== -/

/-- C1 (code bug): the claim says that, for both the parse and the dump
option extractor, the mode's default bundle is applied first and every
explicitly supplied field afterwards, so explicit values always win.  The
parse extractor does behave that way, but `yyjson_extract_dump_options`
reads `pretty`, `indent`, `escape_slash` and `allow_nan` BEFORE the
`:mode` branch, so Strict mode's bundle overwrites an explicitly supplied
`allow_nan` or `escape_slash`; only `escape_html` is read after the mode.
This theorem evaluates the extractors at the failing inputs: the dump
extractor resolves `mode: :strict, allow_nan: true` to `allow_nan =
false` and `mode: :strict, escape_slash: false` to `escape_slash = true`,
while the parse extractor honours the analogous explicit fields, and the
dump extractor honours the one field (`escape_html`) it reads after the
mode. -/
theorem c1_dump_mode_clobbers_explicit :
    (yyjson_extract_dump_options
      (some { mode := some MSym.strict, allow_nan := some true })).allow_nan = false
    ∧ (yyjson_extract_dump_options
      (some { mode := some MSym.strict, escape_slash := some false })).escape_slash = true
    ∧ (yyjson_extract_parse_options
      (some { mode := some MSym.strict, allow_nan := some true })).allow_nan = true
    ∧ (yyjson_extract_parse_options
      (some { mode := some MSym.strict, allow_comments := some true })).allow_comments = true
    ∧ (yyjson_extract_dump_options
      (some { mode := some MSym.rails, escape_html := some false })).escape_html = false := by
  exact ⟨rfl, rfl, rfl, rfl, rfl⟩

set_option maxRecDepth 100000 in
/-- C2 (counterexample): the claim states that with the default maximum
nesting of 100 a structure nested exactly 101 container levels deep fails
with a nesting error; in fact it exports successfully, because
`check_circular_reference` raises only when the count of already-entered
enclosing containers exceeds `MAX_NESTING_DEPTH`, i.e. on entering the
102nd container of a chain. -/
theorem c2_counterexample :
    (yyjson_dump_ruby_object (nestedArrHeap 101) (yyjson_extract_dump_options none) 300
      (RVal.vref 0)).isOk = true := by
  rfl

set_option maxRecDepth 100000 in
/-- C2 (amended): with the hard-coded `MAX_NESTING_DEPTH = 100`, chains of
100 and of 101 nested containers export successfully and a chain of 102
nested containers fails with the nesting-too-deep GenerateError; the check
runs on every container entry and fires when the count of already-entered
enclosing containers exceeds 100. -/
theorem c2_depth_boundary :
    MAX_NESTING_DEPTH = 100
    ∧ (yyjson_dump_ruby_object (nestedArrHeap 100) (yyjson_extract_dump_options none) 300
        (RVal.vref 0)).isOk = true
    ∧ (yyjson_dump_ruby_object (nestedArrHeap 101) (yyjson_extract_dump_options none) 300
        (RVal.vref 0)).isOk = true
    ∧ yyjson_dump_ruby_object (nestedArrHeap 102) (yyjson_extract_dump_options none) 300
        (RVal.vref 0) = Except.error GErr.nestingTooDeep := by
  exact ⟨rfl, rfl, rfl, rfl⟩

/-- C3: a hash containing itself, directly or through an intermediate
array, fails export with the circular-reference GenerateError, while a
non-cyclic container reachable via two sibling references (in an array or
under two hash keys) exports successfully — the active-path identity set
is extended on container entry and restored on exit, so only ancestor
cycles are rejected. -/
theorem c3_cycle_detection :
    yyjson_dump_ruby_object selfRefHashHeap (yyjson_extract_dump_options none) 300
      (RVal.vref 0) = Except.error GErr.circularReference
    ∧ yyjson_dump_ruby_object indirectCycleHeap (yyjson_extract_dump_options none) 300
        (RVal.vref 0) = Except.error GErr.circularReference
    ∧ (yyjson_dump_ruby_object sharedArrHeap (yyjson_extract_dump_options none) 300
        (RVal.vref 0)).isOk = true
    ∧ (yyjson_dump_ruby_object sharedHashHeap (yyjson_extract_dump_options none) 300
        (RVal.vref 0)).isOk = true := by
  exact ⟨rfl, rfl, rfl, rfl⟩

/-- C4: with `:mode => :strict` and no explicit `allow_nan` (whatever the
other fields), the resolved `allow_nan` is false and dumping a NaN float
raises the GenerateError; with `:mode => :rails` and no explicit
`escape_html`, the resolved `escape_html` is true, so the serialized text
is HTML-escaped; and in general `dump_float` raises the GenerateError if
and only if the value is non-finite and the resolved `allow_nan` is
false. -/
theorem c4_strict_nan_rails_escape :
    (∀ (p : Option Bool) (ind : Option Int) (es eh : Option Bool),
      (yyjson_extract_dump_options
        (some ⟨p, ind, es, none, some MSym.strict, eh⟩)).allow_nan = false)
    ∧ (∀ (p : Option Bool) (ind : Option Int) (es an : Option Bool),
      (yyjson_extract_dump_options
        (some ⟨p, ind, es, an, some MSym.rails, none⟩)).escape_html = true)
    ∧ (∀ (p : Option Bool) (ind : Option Int) (es an : Option Bool) (s : ByteStr),
      write_post (yyjson_extract_dump_options
        (some ⟨p, ind, es, an, some MSym.rails, none⟩)) s = escape_html_entities s)
    ∧ (∀ (an : Bool) (d : Dbl),
      dump_float an d = Except.error GErr.nanNotAllowed ↔
        ((d.isinf || d.isnan) = true ∧ an = false))
    ∧ (∀ (p : Option Bool) (ind : Option Int) (es eh : Option Bool)
        (heap : Heap) (fuel depth : Nat) (visited : List Nat),
      dump_ruby_object heap
        (yyjson_extract_dump_options (some ⟨p, ind, es, none, some MSym.strict, eh⟩))
        (fuel + 1) (RVal.vfloat Dbl.nan) depth visited
        = Except.error GErr.nanNotAllowed) := by
  have hstrict : ∀ (p : Option Bool) (ind : Option Int) (es eh : Option Bool),
      (yyjson_extract_dump_options
        (some ⟨p, ind, es, none, some MSym.strict, eh⟩)).allow_nan = false := by
    intro p ind es eh
    cases p <;> cases ind <;> cases es <;> cases eh <;>
      simp [yyjson_extract_dump_options, apply_ite]
  have hrails : ∀ (p : Option Bool) (ind : Option Int) (es an : Option Bool),
      (yyjson_extract_dump_options
        (some ⟨p, ind, es, an, some MSym.rails, none⟩)).escape_html = true := by
    intro p ind es an
    cases p <;> cases ind <;> cases es <;> cases an <;>
      simp [yyjson_extract_dump_options, apply_ite]
  refine ⟨hstrict, hrails, ?_, ?_, ?_⟩
  · intro p ind es an s
    rw [write_post, if_pos (hrails p ind es an)]
  · intro an d
    cases d <;> cases an <;>
      simp [dump_float, Dbl.isinf, Dbl.isnan]
  · intro p ind es eh heap fuel depth visited
    rw [dump_ruby_object]
    show dump_float _ Dbl.nan = _
    rw [hstrict p ind es eh]
    rfl

/-- C9: an opaque (non-basic) host object that is not time-like and whose
`as_json` capability returns `nil` is not exported as JSON null — the
`nil` result is indistinguishable from the capability being absent, and
in both cases the object is exported through the generic `to_s` string
fallback. -/
theorem c9_as_json_nil_fallback :
    ∀ (heap : Heap) (opts : DumpOpts) (fuel depth : Nat) (visited : List Nat)
      (iso xml : Option ByteStr) (toS : ByteStr),
      dump_ruby_object heap opts (fuel + 1)
        (RVal.vforeign false iso xml (some RVal.vnil) toS) depth visited
        = Except.ok (JNode.jstr toS)
      ∧ dump_ruby_object heap opts (fuel + 1)
          (RVal.vforeign false iso xml none toS) depth visited
          = Except.ok (JNode.jstr toS) := by
  intro heap opts fuel depth visited iso xml toS
  constructor <;>
    simp [dump_ruby_object, try_as_json, is_basic_json_type, rubyToS]

/-- C5: `escape_html_entities` rewrites every occurrence of the bytes `<`
(60), `>` (62), `&` (38) and `'` (39) into its fixed 6-byte escape
sequence and leaves all other bytes unchanged and in order — the result
is the concatenation of the per-byte map over the input — growing by
exactly 5 bytes per escaped occurrence (the size the second pass's buffer
is allocated with); in particular, on the engine-serialized text of the
Ruby string `<a>&'` with `escape_html` set, the writer's post-pass
produces the escaped payload inside the surrounding string quotes. -/
theorem c5_escape_html :
    (∀ s : ByteStr, escape_html_entities s = s.flatMap escByte)
    ∧ (∀ s : ByteStr, (escape_html_entities s).length = s.length + 5 * escape_count s)
    ∧ escByte 60 = [92, 117, 48, 48, 51, 99]
    ∧ escByte 62 = [92, 117, 48, 48, 51, 101]
    ∧ escByte 38 = [92, 117, 48, 48, 50, 54]
    ∧ escByte 39 = [92, 117, 48, 48, 50, 55]
    ∧ (∀ c : Nat, c = 60 ∨ c = 62 ∨ c = 38 ∨ c = 39 ∨ escByte c = [c])
    ∧ escape_html_entities serializedLtA = escapedLtA
    ∧ write_post (yyjson_extract_dump_options (some { escape_html := some true }))
        serializedLtA = escapedLtA := by
  refine ⟨escape_html_entities_eq_flatMap, escape_html_entities_length,
    rfl, rfl, rfl, rfl, ?_, by decide, by decide⟩
  intro c
  by_cases h1 : c = 60
  · exact Or.inl h1
  by_cases h2 : c = 62
  · exact Or.inr (Or.inl h2)
  by_cases h3 : c = 38
  · exact Or.inr (Or.inr (Or.inl h3))
  by_cases h4 : c = 39
  · exact Or.inr (Or.inr (Or.inr (Or.inl h4)))
  refine Or.inr (Or.inr (Or.inr (Or.inr ?_)))
  simp [escByte, h1, h2, h3, h4]

/-- C6: the parse-option extractor resolves the mode default bundles of
the spec's table — Strict: `allow_nan = false`, `allow_comments = false`,
`symbolize_names = false`; Compat (also the default when no mode or no
hash is given): `allow_nan = true`, `allow_comments = true`,
`symbolize_names = false`; Rails: `symbolize_names = true`, `allow_nan =
true`, `allow_comments = true`; Object and Custom leave the Compat
baseline unchanged (only the recorded mode differs). -/
theorem c6_parse_mode_defaults :
    yyjson_extract_parse_options none =
      { symbolize_names := false, freeze := false, allow_nan := true,
        allow_comments := true, max_nesting := 100, mode := Mode.mcompat }
    ∧ yyjson_extract_parse_options (some {}) =
      { symbolize_names := false, freeze := false, allow_nan := true,
        allow_comments := true, max_nesting := 100, mode := Mode.mcompat }
    ∧ yyjson_extract_parse_options (some { mode := some MSym.strict }) =
      { symbolize_names := false, freeze := false, allow_nan := false,
        allow_comments := false, max_nesting := 100, mode := Mode.mstrict }
    ∧ yyjson_extract_parse_options (some { mode := some MSym.compat }) =
      { symbolize_names := false, freeze := false, allow_nan := true,
        allow_comments := true, max_nesting := 100, mode := Mode.mcompat }
    ∧ yyjson_extract_parse_options (some { mode := some MSym.rails }) =
      { symbolize_names := true, freeze := false, allow_nan := true,
        allow_comments := true, max_nesting := 100, mode := Mode.mrails }
    ∧ yyjson_extract_parse_options (some { mode := some MSym.object }) =
      { symbolize_names := false, freeze := false, allow_nan := true,
        allow_comments := true, max_nesting := 100, mode := Mode.mobject }
    ∧ yyjson_extract_parse_options (some { mode := some MSym.custom }) =
      { symbolize_names := false, freeze := false, allow_nan := true,
        allow_comments := true, max_nesting := 100, mode := Mode.mcustom } := by
  exact ⟨rfl, rfl, rfl, rfl, rfl, rfl, rfl⟩

set_option maxRecDepth 1000000 in
/-- C7 (counterexample): the claim says every cache-eligible key occurring
more than once in a document resolves to the identical atom at every
occurrence.  After 63 distinct eligible keys have filled the cache to
capacity, the eligible key `"zz"` misses on both of its occurrences,
`cache_insert` is a no-op, and the two occurrences allocate two distinct
(value-equal but not identity-equal) atoms. -/
theorem c7_counterexample :
    cache_eligible zzKey = true
    ∧ overflow_keys.get? 63 = some zzKey
    ∧ overflow_keys.get? 64 = some zzKey
    ∧ (run_keys overflow_keys).1.get? 63 = some { id := 63, bytes := zzKey }
    ∧ (run_keys overflow_keys).1.get? 64 = some { id := 64, bytes := zzKey }
    ∧ (run_keys overflow_keys).1.get? 63 ≠ (run_keys overflow_keys).1.get? 64 := by
  exact ⟨by decide, by decide, by decide, by decide, by decide, by decide⟩

/-- C7 (amended): within one import call, an eligible key (length 1-55,
first byte an ASCII letter) that occurs more than once resolves to the
identical atom at every occurrence PROVIDED its first occurrence is
served while the cache has spare capacity (fewer than 63 entries) or the
key is already cached at that point; ineligible keys always bypass the
cache (which is left untouched) and allocate a fresh, value-equal atom —
in both the string-key and the symbol-key variant, which share one
procedure. -/
theorem c7_interning_amended :
    (∀ (keys : List ByteStr) (i j : Nat) (k : ByteStr),
      cache_eligible k = true → i < j →
      keys.get? i = some k → keys.get? j = some k →
      ((cache_after [] { next := 0 } (keys.take i)).length < CACHE_SIZE ∨
        has_key_entry (cache_after [] { next := 0 } (keys.take i)) k) →
      ∃ a, (run_keys keys).1.get? i = some a ∧ (run_keys keys).1.get? j = some a)
    ∧ (∀ (c : Cache) (st : AllocSt) (s : ByteStr), cache_eligible s = false →
        get_str_key c st s = ({ id := st.next, bytes := s }, c, { next := st.next + 1 })
        ∧ get_sym_key c st s
            = ({ id := st.next, bytes := s }, c, { next := st.next + 1 })) := by
  constructor
  · intro keys i j k helig hij hgi hgj hcap
    exact run_identical_aux i keys [] { next := 0 } j k List.Pairwise.nil
      helig hij hgi hgj hcap
  · intro c st s h
    exact ⟨get_str_key_ineligible h, get_str_key_ineligible h⟩

/-- C7 (witness): the eligible key `"ab"` served at positions 0 and 2 of a
fresh import call resolves both times to the same atom. -/
theorem c7_witness :
    ∃ a, (run_keys [[97, 98], [99, 100], [97, 98]]).1.get? 0 = some a
      ∧ (run_keys [[97, 98], [99, 100], [97, 98]]).1.get? 2 = some a :=
  c7_interning_amended.1 [[97, 98], [99, 100], [97, 98]] 0 2 [97, 98]
    (by decide) (by decide) (by decide) (by decide) (Or.inl (by decide))

/-- C8: every lookup-or-insert on a sorted cache keeps the entry array
strictly sorted by (hash, then length, then byte order), never lets the
entry count exceed the fixed capacity of 63, never evicts or overwrites
an entry (every old entry survives; the cache either stays unchanged or
gains exactly one entry inserted at its sorted position while capacity
remains), and once the cache is full no lookup mutates it; consequently
every key sequence served from the empty cache of a fresh import call
ends in a sorted cache of at most 63 entries. -/
theorem c8_cache_invariants :
    (∀ (c : Cache) (st : AllocSt) (s : ByteStr), CacheSorted c → c.length ≤ CACHE_SIZE →
      CacheSorted (get_str_key c st s).2.1
      ∧ (get_str_key c st s).2.1.length ≤ CACHE_SIZE
      ∧ (∀ e ∈ c, e ∈ (get_str_key c st s).2.1)
      ∧ ((get_str_key c st s).2.1 = c ∨
          (c.length < CACHE_SIZE ∧ ∃ (p : Nat) (en : CacheEntry), p ≤ c.length ∧
            (get_str_key c st s).2.1 = c.take p ++ en :: c.drop p))
      ∧ (c.length = CACHE_SIZE → (get_str_key c st s).2.1 = c))
    ∧ (∀ (keys : List ByteStr),
        CacheSorted (run_keys keys).2.1 ∧ (run_keys keys).2.1.length ≤ CACHE_SIZE) := by
  constructor
  · intro c st s hs hlen
    obtain ⟨h1, h2, h3, h4⟩ := get_str_key_cache_props hs st s
    exact ⟨h1, get_str_key_length hs st s hlen, h2, h3, fun hfull => h4 (by omega)⟩
  · intro keys
    have h := run_keys_from_props keys [] { next := 0 } List.Pairwise.nil
    exact ⟨h.1, h.2.2 (by decide)⟩

/-- C8 (witness): one lookup of the eligible key `"a"` on the empty cache
satisfies every invariant of the per-operation statement. -/
theorem c8_witness :
    CacheSorted (get_str_key [] { next := 0 } [97]).2.1
    ∧ (get_str_key [] { next := 0 } [97]).2.1.length ≤ CACHE_SIZE
    ∧ (∀ e ∈ ([] : Cache), e ∈ (get_str_key [] { next := 0 } [97]).2.1)
    ∧ ((get_str_key [] { next := 0 } [97]).2.1 = ([] : Cache) ∨
        (([] : Cache).length < CACHE_SIZE ∧ ∃ (p : Nat) (en : CacheEntry),
          p ≤ ([] : Cache).length ∧
          (get_str_key [] { next := 0 } [97]).2.1
            = ([] : Cache).take p ++ en :: ([] : Cache).drop p))
    ∧ (([] : Cache).length = CACHE_SIZE → (get_str_key [] { next := 0 } [97]).2.1 = []) :=
  c8_cache_invariants.1 [] { next := 0 } [97] (by decide) (by decide)

/-- C10: parsing with no options hash, or an empty one, goes through the
pre-initialized `default_parse_opts` fast path of `yyjson_load`, and that
struct equals what the option extractor resolves for an absent or empty
hash — Compat mode with `symbolize_names = false`, `freeze = false`,
`allow_nan = true`, `allow_comments = true`, `max_nesting = 100` — so for
every downstream parse function the fast path is observably equivalent to
the general path. -/
theorem c10_fast_path_equivalence :
    default_parse_opts = yyjson_extract_parse_options none
    ∧ default_parse_opts = yyjson_extract_parse_options (some emptyParseOptsHash)
    ∧ (∀ (α : Type) (parse : ParseOpts → α),
        yyjson_load parse none = parse (yyjson_extract_parse_options none)
        ∧ yyjson_load parse (some emptyParseOptsHash)
            = parse (yyjson_extract_parse_options (some emptyParseOptsHash)))
    ∧ yyjson_extract_parse_options none =
      { symbolize_names := false, freeze := false, allow_nan := true,
        allow_comments := true, max_nesting := 100, mode := Mode.mcompat } := by
  refine ⟨rfl, rfl, ?_, rfl⟩
  intro α parse
  refine ⟨rfl, ?_⟩
  simp only [yyjson_load, if_true]
  exact congrArg parse rfl

end YYJson
